import Mathlib

/-!
Shallow embedding of the core pipeline of `scripts/fetch_news.py`
(The Marketing Kitchen news fetcher): relevance scoring, industry/vendor
classification, two-pass deduplication, and output partitioning.

Python strings are modelled as Lean `String`; `str.lower()` is modelled
for the ASCII range by mapping `Char.toLower`; Python's `in` substring
test is modelled by an explicit scan over the character list; Python's
lexicographic string comparison is modelled by lexicographic comparison
of the character lists.  Timestamps enter the scorer only through
`dateutil.parser.parse`, an external library: it is modelled as an
injected parameter `pd : String → Option Int` returning the parsed epoch
time in seconds (`none` = the parse raised), together with an injected
current time `now : Int` in seconds.  Python's float comparison
`len(i)/len(u) > 0.85` is modelled by the exact rational comparison
`17*|u| < 20*|i|`: for the cardinalities reachable from title token sets
the two agree (the nearest double to 0.85 is below 0.85, and no ratio of
small naturals falls between them).
-/

set_option maxHeartbeats 1000000

namespace FetchNews

/-- ASCII model of Python `str.lower()`. -/
def lower (s : String) : String := ⟨s.data.map Char.toLower⟩

/-- Substring containment on character lists: Python's `needle in haystack`. -/
def listContainsSub (needle : List Char) : List Char → Bool
  | [] => needle.isEmpty
  | c :: rest => needle.isPrefixOf (c :: rest) || listContainsSub needle rest

/-- Python's `needle in haystack` on strings. -/
def strIn (needle haystack : String) : Bool :=
  listContainsSub needle.data haystack.data

/-- Lexicographic order on character lists: Python string comparison. -/
def charListLE : List Char → List Char → Bool
  | [], _ => true
  | _ :: _, [] => false
  | c :: cs, d :: ds => if c = d then charListLE cs ds else decide (c < d)

/-- A normalized article record as produced by `normalize_entry` and
mutated by `main` (score, industries, vendors). -/
structure Article where
  id : String
  title : String
  url : String
  source : String
  source_category : String
  published : String
  summary : String
  image_url : Option String
  tags : List String
  industries : List String
  vendors : List String
  relevance_score : Int
deriving DecidableEq, Repr

/-- The feed configuration as read by the scoring / classification code:
`relevance_keywords` tiers plus the two keyword maps (association lists,
preserving Python dict insertion order).  A missing key in the Python
dict is the empty list. -/
structure Config where
  high_weight : List String
  medium_weight : List String
  low_weight : List String
  industry_keywords : List (String × List String)
  vendor_keywords : List (String × List String)
deriving Repr

/-- One tier loop of `compute_relevance_score`: for each keyword add the
title weight on a title match, else the summary weight on a summary
match. -/
def tier_score (tw sw : Int) (titleL summaryL : String) (kws : List String) : Int :=
  kws.foldl (fun s kw =>
    if strIn (lower kw) titleL then s + tw
    else if strIn (lower kw) summaryL then s + sw
    else s) 0

/-- The `# Recency boost` block of `compute_relevance_score`.  `pd` models
`dateutil.parser.parse` (with the timezone defaulting folded in); the
thresholds 6h/12h/24h become 21600/43200/86400 seconds. -/
def recency_boost (pd : String → Option Int) (now : Int) (published : String) : Int :=
  match pd published with
  | none => 0
  | some t =>
    if now - t < 21600 then 15
    else if now - t < 43200 then 10
    else if now - t < 86400 then 5
    else 0

/-- Model of `compute_relevance_score(article, config)`, with the
parse function and current time injected. -/
def compute_relevance_score (pd : String → Option Int) (now : Int)
    (a : Article) (cfg : Config) : Int :=
  let titleL := lower a.title
  let summaryL := lower a.summary
  let score :=
    tier_score 45 15 titleL summaryL cfg.high_weight
      + tier_score 24 8 titleL summaryL cfg.medium_weight
      + tier_score 9 3 titleL summaryL cfg.low_weight
      + recency_boost pd now a.published
  min (max score 10) 100

/-- Model of `(article["title"] + " " + article["summary"]).lower()`. -/
def article_text (a : Article) : String := lower (a.title ++ " " ++ a.summary)

/-- Model of `classify_industries(article, config)`. -/
def classify_industries (a : Article) (cfg : Config) : List String :=
  cfg.industry_keywords.foldl (fun acc p =>
    if p.2.any (fun kw => strIn (lower kw) (article_text a)) then acc ++ [p.1]
    else acc) []

/-- Model of `classify_vendors(article, config)`. -/
def classify_vendors (a : Article) (cfg : Config) : List String :=
  cfg.vendor_keywords.foldl (fun acc p =>
    if p.2.any (fun kw => strIn (lower kw) (article_text a)) then acc ++ [p.1]
    else acc) []

/-- One iteration of the first (exact-id) dedup loop.  The state is
(`seen_ids` as an association list, newest binding first; `unique`). -/
def pass1Step (st : List (String × Article) × List Article) (a : Article) :
    List (String × Article) × List Article :=
  match st.1.lookup a.id with
  | some prev =>
    if prev.relevance_score < a.relevance_score then
      ((a.id, a) :: st.1, (st.2.filter fun b => b.id != a.id) ++ [a])
    else st
  | none => ((a.id, a) :: st.1, st.2 ++ [a])

/-- First pass of `deduplicate`: exact URL-hash dedup keeping the highest
score, first seen winning ties. -/
def pass1 (articles : List Article) : List Article :=
  (articles.foldl pass1Step ([], [])).2

/-- Word characters of the regex `\w+`, ASCII model. -/
def wordChar (c : Char) : Bool := c.isAlphanum || c == '_'

/-- Model of `re.findall(r"\w+", s)`: maximal runs of word characters.  The second
argument accumulates the current run, reversed. -/
def splitRuns : List Char → List Char → List (List Char)
  | [], cur => if cur.isEmpty then [] else [cur.reverse]
  | c :: rest, cur =>
    if wordChar c then splitRuns rest (c :: cur)
    else if cur.isEmpty then splitRuns rest []
    else cur.reverse :: splitRuns rest []

/-- Model of `set(re.findall(r"\w+", title.lower()))`. -/
def title_tokens (title : String) : Finset String :=
  ((splitRuns (lower title).data []).map fun cs => String.mk cs).toFinset

/-- Test `len(intersection)/len(union) > 0.85`, as an exact rational
comparison (see the header comment on the float model). -/
def jaccard_gt (w e : Finset String) : Bool :=
  decide (17 * (w ∪ e).card < 20 * (w ∩ e).card)

/-- The inner loop of the fuzzy pass: scan the accepted slots in order,
skipping slots with fewer than 3 tokens; at the first slot whose
similarity with `w` exceeds 0.85, replace it if the new article scores
strictly higher, else keep it, and stop (`some updatedSlots`); if no
slot matches, `none`. -/
def fuzzy_scan (a : Article) (w : Finset String) :
    List (Article × Finset String) → Option (List (Article × Finset String))
  | [] => none
  | s :: rest =>
    if 3 ≤ s.2.card ∧ jaccard_gt w s.2 then
      some (if s.1.relevance_score < a.relevance_score then (a, w) :: rest else s :: rest)
    else (fuzzy_scan a w rest).map (s :: ·)

/-- One iteration of the second (fuzzy-title) dedup loop.  Each slot
pairs the accepted article with its title token set (the source's
parallel lists `final` / `title_words_list`). -/
def pass2Step (slots : List (Article × Finset String)) (a : Article) :
    List (Article × Finset String) :=
  let w := title_tokens a.title
  if w.card < 3 then slots ++ [(a, w)]
  else
    match fuzzy_scan a w slots with
    | some slots' => slots'
    | none => slots ++ [(a, w)]

/-- Second pass of `deduplicate`: fuzzy title dedup. -/
def pass2 (articles : List Article) : List Article :=
  (articles.foldl pass2Step []).map Prod.fst

/-- Model of `deduplicate(articles)`: exact pass then fuzzy pass. -/
def deduplicate (articles : List Article) : List Article :=
  pass2 (pass1 articles)

/-- The sort key `(-relevance_score, published)` of `build_output_files`,
as a `le` test: higher score first, ties by published ascending
(lexicographic string comparison, as Python compares the ISO strings). -/
def sort_le (a b : Article) : Bool :=
  decide (b.relevance_score < a.relevance_score)
    || (a.relevance_score == b.relevance_score
        && charListLE a.published.data b.published.data)

def MAX_ARTICLES_PER_OUTPUT : Nat := 100

/-- The primary output set (`main-feed.json`): sort by the key, truncate. -/
def main_feed (articles : List Article) : List Article :=
  (articles.mergeSort sort_le).take MAX_ARTICLES_PER_OUTPUT

/-- A per-vendor output set of `build_output_files` (the source writes
the two instances `v = "adobe"` and `v = "salesforce"` literally):
filter by `source_category == v or v in a.get("vendors", [])`, sort,
truncate. -/
def vendor_feed (v : String) (articles : List Article) : List Article :=
  ((articles.filter fun a => a.source_category == v || a.vendors.contains v).mergeSort
    sort_le).take MAX_ARTICLES_PER_OUTPUT

/-- A per-industry output set of `build_output_files`. -/
def industry_feed (i : String) (articles : List Article) : List Article :=
  ((articles.filter fun a => a.industries.contains i).mergeSort
    sort_le).take MAX_ARTICLES_PER_OUTPUT

/-- Model of `article.pop("vendors", None)` in `main`: the vendors field is
removed (here: emptied) before `build_output_files` runs. -/
def pop_vendors (a : Article) : Article := { a with vendors := [] }

/-- The per-article enrichment loop of `main`: assign score, industries
and vendors (all computed from the article's unchanged text fields). -/
def enrich (pd : String → Option Int) (now : Int) (cfg : Config) (a : Article) : Article :=
  { a with
    relevance_score := compute_relevance_score pd now a cfg
    industries := classify_industries a cfg
    vendors := classify_vendors a cfg }

/-- The post-fetch pipeline of `main`: enrich every article, deduplicate,
then pop the vendors field from every survivor before building outputs. -/
def pipeline (pd : String → Option Int) (now : Int) (cfg : Config)
    (articles : List Article) : List Article :=
  (deduplicate (articles.map (enrich pd now cfg))).map pop_vendors

/-! ### Helper lemmas: scorer -/

lemma clamp_bounds (s : Int) : 10 ≤ min (max s 10) 100 ∧ min (max s 10) 100 ≤ 100 :=
  ⟨le_min (le_max_right _ _) (by norm_num), min_le_right _ _⟩

lemma score_bounds (pd : String → Option Int) (now : Int) (a : Article) (cfg : Config) :
    10 ≤ compute_relevance_score pd now a cfg ∧ compute_relevance_score pd now a cfg ≤ 100 :=
  clamp_bounds _

/-- The amount one keyword contributes inside a tier loop. -/
def kw_gain (tw sw : Int) (titleL summaryL kw : String) : Int :=
  if strIn (lower kw) titleL then tw
  else if strIn (lower kw) summaryL then sw
  else 0

lemma tier_score_foldl_shift (tw sw : Int) (titleL summaryL : String) :
    ∀ (kws : List String) (c : Int),
      kws.foldl (fun s kw =>
        if strIn (lower kw) titleL then s + tw
        else if strIn (lower kw) summaryL then s + sw
        else s) c
      = c + tier_score tw sw titleL summaryL kws := by
  intro kws
  induction kws with
  | nil => intro c; simp [tier_score]
  | cons kw kws ih =>
    intro c
    simp only [tier_score, List.foldl_cons] at *
    by_cases h1 : strIn (lower kw) titleL
    · rw [if_pos h1, if_pos h1, ih (c + tw), ih (0 + tw)]; ring
    · by_cases h2 : strIn (lower kw) summaryL
      · rw [if_neg h1, if_neg h1, if_pos h2, if_pos h2, ih (c + sw), ih (0 + sw)]; ring
      · rw [if_neg h1, if_neg h1, if_neg h2, if_neg h2, ih c]

lemma tier_score_cons (tw sw : Int) (titleL summaryL kw : String) (kws : List String) :
    tier_score tw sw titleL summaryL (kw :: kws)
      = kw_gain tw sw titleL summaryL kw + tier_score tw sw titleL summaryL kws := by
  simp only [tier_score, List.foldl_cons, kw_gain]
  by_cases h1 : strIn (lower kw) titleL
  · simp only [if_pos h1]
    have := tier_score_foldl_shift tw sw titleL summaryL kws tw
    simpa [tier_score] using this
  · by_cases h2 : strIn (lower kw) summaryL
    · simp only [if_neg h1, if_pos h2]
      have := tier_score_foldl_shift tw sw titleL summaryL kws sw
      simpa [tier_score] using this
    · simp [if_neg h1, if_neg h2, tier_score]

/-! ### Claim theorems: scorer -/

/-- C2: for every article and every Configuration (and any parse function
and scoring instant), `compute_relevance_score` returns an integer
between 10 and 100 inclusive. -/
theorem claim_C2_score_in_bounds (pd : String → Option Int) (now : Int)
    (a : Article) (cfg : Config) :
    10 ≤ compute_relevance_score pd now a cfg
      ∧ compute_relevance_score pd now a cfg ≤ 100 :=
  score_bounds pd now a cfg

/-- C6: in each tier of the scorer, a keyword contributes its tier title
weight (45 / 24 / 9) when its lower-cased form is a substring of the
lower-cased title, else the tier summary weight (15 / 8 / 3) when it is
a substring of the lower-cased summary, else 0 — at most once, title
taking priority — and in every tier the title weight is strictly larger
than the summary weight. -/
theorem claim_C6_keyword_contribution (titleL summaryL kw : String) (kws : List String)
    (tw sw : Int)
    (htier : (tw = 45 ∧ sw = 15) ∨ (tw = 24 ∧ sw = 8) ∨ (tw = 9 ∧ sw = 3)) :
    tier_score tw sw titleL summaryL (kw :: kws)
      = kw_gain tw sw titleL summaryL kw + tier_score tw sw titleL summaryL kws
    ∧ (strIn (lower kw) titleL = true → kw_gain tw sw titleL summaryL kw = tw)
    ∧ (strIn (lower kw) titleL = false → strIn (lower kw) summaryL = true →
        kw_gain tw sw titleL summaryL kw = sw)
    ∧ (strIn (lower kw) titleL = false → strIn (lower kw) summaryL = false →
        kw_gain tw sw titleL summaryL kw = 0)
    ∧ sw < tw := by
  refine ⟨tier_score_cons tw sw titleL summaryL kw kws, ?_, ?_, ?_, ?_⟩
  · intro h1; simp [kw_gain, h1]
  · intro h1 h2; simp [kw_gain, h1, h2]
  · intro h1 h2; simp [kw_gain, h1, h2]
  · rcases htier with ⟨h, h'⟩ | ⟨h, h'⟩ | ⟨h, h'⟩ <;> subst h <;> subst h' <;> norm_num

theorem claim_C6_witness :
    tier_score 45 15 "ai suite" "text" ["ai"]
      = kw_gain 45 15 "ai suite" "text" "ai" + tier_score 45 15 "ai suite" "text" []
    ∧ kw_gain 45 15 "ai suite" "text" "ai" = 45 := by
  have h := claim_C6_keyword_contribution "ai suite" "text" "ai" [] 45 15 (Or.inl ⟨rfl, rfl⟩)
  exact ⟨h.1, h.2.1 (by decide)⟩

/-- C7: the recency component adds 15 when the published instant is less
than 6 hours (21600 s) before the scoring instant, 10 when less than 12
hours, 5 when less than 24 hours, and 0 otherwise; an unparseable
timestamp yields no bonus, and the scorer still returns a well-formed
score in [10, 100]. -/
theorem claim_C7_recency (pd : String → Option Int) (now : Int) (pub : String) :
    (pd pub = none → recency_boost pd now pub = 0)
    ∧ (∀ t : Int, pd pub = some t →
        (now - t < 21600 → recency_boost pd now pub = 15)
        ∧ (21600 ≤ now - t → now - t < 43200 → recency_boost pd now pub = 10)
        ∧ (43200 ≤ now - t → now - t < 86400 → recency_boost pd now pub = 5)
        ∧ (86400 ≤ now - t → recency_boost pd now pub = 0))
    ∧ (∀ (a : Article) (cfg : Config), pd a.published = none →
        10 ≤ compute_relevance_score pd now a cfg
          ∧ compute_relevance_score pd now a cfg ≤ 100) := by
  refine ⟨?_, ?_, fun a cfg _ => score_bounds pd now a cfg⟩
  · intro h; simp [recency_boost, h]
  · intro t ht
    refine ⟨?_, ?_, ?_, ?_⟩ <;> intros <;> simp only [recency_boost, ht] <;>
      split <;> first | rfl | omega

theorem claim_C7_witness :
    recency_boost (fun s => if s = "t0" then some 0 else none) 10000 "t0" = 15
    ∧ recency_boost (fun s => if s = "t0" then some 0 else none) 10000 "bad" = 0 := by
  have h := claim_C7_recency (fun s => if s = "t0" then some 0 else none) 10000 "t0"
  have h' := claim_C7_recency (fun s => if s = "t0" then some 0 else none) 10000 "bad"
  exact ⟨(h.2.1 0 (by decide)).1 (by norm_num), h'.1 (by decide)⟩

/-! ### Helper lemmas: exact-id pass -/

/-- Running best of the exact pass: keep the current article unless the
new one scores strictly higher. -/
def bestStep (acc : Option Article) (a : Article) : Option Article :=
  match acc with
  | none => some a
  | some b => if b.relevance_score < a.relevance_score then some a else some b

/-- The earliest maximum-score article of a list. -/
def firstMax (l : List Article) : Option Article := l.foldl bestStep none

lemma bestStep_some (b a : Article) :
    bestStep (some b) a
      = some (if b.relevance_score < a.relevance_score then a else b) := by
  show (if b.relevance_score < a.relevance_score then some a else some b)
      = some (if b.relevance_score < a.relevance_score then a else b)
  split <;> rfl

lemma lookup_cons_self (k : String) (v : Article) (es : List (String × Article)) :
    List.lookup k ((k, v) :: es) = some v := by
  simp [List.lookup]

lemma lookup_cons_ne (k pk : String) (v : Article) (es : List (String × Article))
    (h : (k == pk) = false) : List.lookup k ((pk, v) :: es) = List.lookup k es := by
  simp [List.lookup, h]

lemma foldl_bestStep_some (l : List Article) (b : Article) :
    ∃ c, l.foldl bestStep (some b) = some c := by
  induction l generalizing b with
  | nil => exact ⟨b, rfl⟩
  | cons a l ih =>
    rw [List.foldl_cons, bestStep_some]
    exact ih _

lemma firstMax_eq_none {l : List Article} : firstMax l = none ↔ l = [] := by
  constructor
  · intro h
    cases l with
    | nil => rfl
    | cons a l =>
      rw [firstMax, List.foldl_cons] at h
      obtain ⟨c, hc⟩ := foldl_bestStep_some l a
      rw [show bestStep none a = some a from rfl, hc] at h
      cases h
  · rintro rfl; rfl

lemma firstMax_append (l : List Article) (a : Article) :
    firstMax (l ++ [a]) = bestStep (firstMax l) a := by
  simp [firstMax, List.foldl_append]

lemma foldl_bestStep_spec (l : List Article) :
    ∀ (b0 b : Article),
      l.foldl bestStep (some b0) = some b →
      b0.relevance_score ≤ b.relevance_score ∧
      ∃ t₁ t₂, b0 :: l = t₁ ++ b :: t₂
        ∧ (∀ c ∈ t₁, c.relevance_score < b.relevance_score)
        ∧ (∀ c ∈ t₂, c.relevance_score ≤ b.relevance_score) := by
  induction l with
  | nil =>
    intro b0 b h
    rw [List.foldl_nil] at h
    cases h
    exact ⟨le_refl _, [], [], rfl, by simp, by simp⟩
  | cons a l ih =>
    intro b0 b h
    rw [List.foldl_cons, bestStep_some] at h
    by_cases hba : b0.relevance_score < a.relevance_score
    · rw [if_pos hba] at h
      obtain ⟨hle, t₁, t₂, hdec, h1, h2⟩ := ih a b h
      refine ⟨le_of_lt (lt_of_lt_of_le hba hle), b0 :: t₁, t₂, ?_, ?_, h2⟩
      · simpa using congrArg (b0 :: ·) hdec
      · intro c hc
        rcases List.mem_cons.mp hc with rfl | hc
        · exact lt_of_lt_of_le hba hle
        · exact h1 c hc
    · rw [if_neg hba] at h
      obtain ⟨hle, t₁, t₂, hdec, h1, h2⟩ := ih b0 b h
      cases t₁ with
      | nil =>
        simp only [List.nil_append] at hdec
        injection hdec with hb hl
        refine ⟨hle, [], a :: t₂, ?_, by simp, ?_⟩
        · rw [← hb, ← hl]; rfl
        · intro c hc
          rcases List.mem_cons.mp hc with rfl | hc
          · rw [← hb]; exact le_of_not_lt hba
          · exact h2 c hc
      | cons x t₁' =>
        rw [List.cons_append] at hdec
        injection hdec with hx hl
        refine ⟨hle, b0 :: a :: t₁', t₂, ?_, ?_, h2⟩
        · simp [hl]
        · intro c hc
          rcases List.mem_cons.mp hc with rfl | hc
          · have := h1 x (List.mem_cons_self x t₁')
            rwa [← hx] at this
          · rcases List.mem_cons.mp hc with rfl | hc
            · exact lt_of_le_of_lt (le_of_not_lt hba)
                (by have := h1 x (List.mem_cons_self x t₁'); rwa [← hx] at this)
            · exact h1 c (List.mem_cons_of_mem x hc)

lemma firstMax_spec {l : List Article} {b : Article} (h : firstMax l = some b) :
    ∃ t₁ t₂, l = t₁ ++ b :: t₂
      ∧ (∀ c ∈ t₁, c.relevance_score < b.relevance_score)
      ∧ (∀ c ∈ t₂, c.relevance_score ≤ b.relevance_score) := by
  cases l with
  | nil => cases h
  | cons a l =>
    rw [firstMax, List.foldl_cons] at h
    obtain ⟨_, t₁, t₂, hdec, h1, h2⟩ := foldl_bestStep_spec l a b h
    exact ⟨t₁, t₂, hdec, h1, h2⟩

lemma pass1_invariant (l : List Article) :
    (∀ i : String,
      (l.foldl pass1Step ([], [])).1.lookup i
          = firstMax (l.filter fun a => a.id == i)
      ∧ (l.foldl pass1Step ([], [])).2.filter (fun a => a.id == i)
          = (firstMax (l.filter fun a => a.id == i)).toList)
    ∧ (l.foldl pass1Step ([], [])).2.length ≤ l.length := by
  induction l using List.reverseRecOn with
  | nil => exact ⟨fun i => ⟨rfl, rfl⟩, Nat.le_refl 0⟩
  | append_singleton l a ih =>
    obtain ⟨ihl, ihlen⟩ := ih
    simp only [List.foldl_append, List.foldl_cons, List.foldl_nil]
    have hfa_self : (l ++ [a]).filter (fun x => x.id == a.id)
        = l.filter (fun x => x.id == a.id) ++ [a] := by
      rw [List.filter_append]; simp
    have hfa_ne : ∀ i : String, a.id ≠ i →
        (l ++ [a]).filter (fun x => x.id == i) = l.filter (fun x => x.id == i) := by
      intro i hi
      rw [List.filter_append]
      simp [beq_eq_false_iff_ne.mpr hi]
    rcases hlk : (l.foldl pass1Step ([], [])).1.lookup a.id with _ | prev
    · -- fresh id: append to both
      have hfm : firstMax (l.filter fun x => x.id == a.id) = none := by
        rw [← (ihl a.id).1, hlk]
      have hfil : l.filter (fun x => x.id == a.id) = [] := firstMax_eq_none.mp hfm
      have hstep : pass1Step (l.foldl pass1Step ([], [])) a
          = ((a.id, a) :: (l.foldl pass1Step ([], [])).1,
             (l.foldl pass1Step ([], [])).2 ++ [a]) := by
        simp [pass1Step, hlk]
      rw [hstep]
      refine ⟨fun i => ?_, ?_⟩
      · by_cases hi : a.id = i
        · subst hi
          refine ⟨?_, ?_⟩
          · rw [lookup_cons_self, hfa_self, hfil]
            rfl
          · rw [List.filter_append, (ihl a.id).2, hfm, hfa_self, hfil]
            simp [Option.toList, firstMax, bestStep]
        · refine ⟨?_, ?_⟩
          · rw [lookup_cons_ne _ _ _ _ (by simp [beq_eq_false_iff_ne, Ne.symm hi]),
              (ihl i).1, hfa_ne i hi]
          · rw [List.filter_append, hfa_ne i hi]
            simp only [List.filter_cons, List.filter_nil,
              beq_eq_false_iff_ne.mpr hi, Bool.false_eq_true, if_false, List.append_nil]
            exact (ihl i).2
      · simp only [List.length_append, List.length_cons, List.length_nil]
        omega
    · -- id already seen: firstMax of the old group is `prev`
      have hfm : firstMax (l.filter fun x => x.id == a.id) = some prev := by
        rw [← (ihl a.id).1, hlk]
      by_cases hsc : prev.relevance_score < a.relevance_score
      · -- replace: remove all with this id, append the new article
        have hstep : pass1Step (l.foldl pass1Step ([], [])) a
            = ((a.id, a) :: (l.foldl pass1Step ([], [])).1,
               ((l.foldl pass1Step ([], [])).2.filter fun b => b.id != a.id) ++ [a]) := by
          simp [pass1Step, hlk, hsc]
        rw [hstep]
        refine ⟨fun i => ?_, ?_⟩
        · by_cases hi : a.id = i
          · subst hi
            refine ⟨?_, ?_⟩
            · rw [lookup_cons_self, hfa_self, firstMax_append, hfm, bestStep_some,
                if_pos hsc]
            · have hnil : ((l.foldl pass1Step ([], [])).2.filter
                  fun b => b.id != a.id).filter (fun x => x.id == a.id) = [] := by
                rw [List.filter_filter]
                apply List.filter_eq_nil_iff.mpr
                intro x _
                simp [bne]
              rw [List.filter_append, hnil, hfa_self, firstMax_append, hfm,
                bestStep_some, if_pos hsc]
              simp [Option.toList]
          · refine ⟨?_, ?_⟩
            · rw [lookup_cons_ne _ _ _ _ (by simp [beq_eq_false_iff_ne, Ne.symm hi]),
                (ihl i).1, hfa_ne i hi]
            · rw [List.filter_append, hfa_ne i hi]
              simp only [List.filter_cons, List.filter_nil,
                beq_eq_false_iff_ne.mpr hi, Bool.false_eq_true, if_false, List.append_nil]
              rw [List.filter_filter]
              have hcong : ∀ x ∈ (l.foldl pass1Step ([], [])).2,
                  ((x.id == i) && (x.id != a.id)) = (x.id == i) := by
                intro x _
                rcases hxi : (x.id == i) with _ | _
                · simp
                · have hxid : x.id = i := beq_iff_eq.mp hxi
                  have hxa : (x.id != a.id) = true := by
                    simp only [bne, Bool.not_eq_true']
                    exact beq_eq_false_iff_ne.mpr (by rw [hxid]; exact Ne.symm hi)
                  simp [hxa]
              rw [List.filter_congr hcong]
              exact (ihl i).2
        · simp only [List.length_append, List.length_cons, List.length_nil]
          have hfl := List.length_filter_le (fun b => b.id != a.id)
            (l.foldl pass1Step ([], [])).2
          omega
      · -- keep: state unchanged
        have hstep : pass1Step (l.foldl pass1Step ([], [])) a
            = l.foldl pass1Step ([], []) := by
          simp [pass1Step, hlk, hsc]
        rw [hstep]
        refine ⟨fun i => ?_, ?_⟩
        · by_cases hi : a.id = i
          · subst hi
            refine ⟨?_, ?_⟩
            · rw [hfa_self, firstMax_append, hfm, bestStep_some, if_neg hsc, hlk]
            · rw [hfa_self, firstMax_append, hfm, bestStep_some, if_neg hsc,
                (ihl a.id).2, hfm]
          · refine ⟨?_, ?_⟩
            · rw [(ihl i).1, hfa_ne i hi]
            · rw [hfa_ne i hi]
              exact (ihl i).2
        · simp only [List.length_append, List.length_cons, List.length_nil]
          omega

lemma pass1_filter (l : List Article) (i : String) :
    (pass1 l).filter (fun a => a.id == i)
      = (firstMax (l.filter fun a => a.id == i)).toList :=
  ((pass1_invariant l).1 i).2

lemma pass1_length_le (l : List Article) : (pass1 l).length ≤ l.length :=
  (pass1_invariant l).2

lemma pass1_mem {l : List Article} {a : Article} (h : a ∈ pass1 l) : a ∈ l := by
  have hme : a ∈ (pass1 l).filter (fun x => x.id == a.id) :=
    List.mem_filter.mpr ⟨h, by simp⟩
  rw [pass1_filter] at hme
  rcases hfm : firstMax (l.filter fun x => x.id == a.id) with _ | b
  · rw [hfm] at hme; cases hme
  · rw [hfm] at hme
    simp only [Option.toList, List.mem_singleton] at hme
    subst hme
    obtain ⟨t₁, t₂, hdec, _, _⟩ := firstMax_spec hfm
    have hmem : a ∈ l.filter (fun x => x.id == a.id) := by
      rw [hdec]; exact List.mem_append_right _ (List.mem_cons_self _ _)
    exact (List.mem_filter.mp hmem).1

lemma filter_le_one_pairwise :
    ∀ u : List Article, (∀ i, ((u.filter fun a => a.id == i)).length ≤ 1) →
      u.Pairwise (fun x y => x.id ≠ y.id) := by
  intro u
  induction u with
  | nil => intro _; exact List.Pairwise.nil
  | cons a u ih =>
    intro h
    have ha := h a.id
    rw [List.filter_cons] at ha
    simp only [beq_self_eq_true, if_true, List.length_cons] at ha
    have hnil : u.filter (fun x => x.id == a.id) = [] :=
      List.length_eq_zero.mp (by omega)
    refine List.Pairwise.cons ?_ (ih ?_)
    · intro b hb
      intro hid
      have : b ∈ u.filter (fun x => x.id == a.id) :=
        List.mem_filter.mpr ⟨hb, beq_iff_eq.mpr hid.symm⟩
      rw [hnil] at this
      cases this
    · intro i
      have hi := h i
      rw [List.filter_cons] at hi
      rcases hai : (a.id == i) with _ | _
      · rwa [hai, if_neg (by simp)] at hi
      · rw [hai, if_pos rfl, List.length_cons] at hi
        omega

lemma pass1_pairwise (l : List Article) :
    (pass1 l).Pairwise (fun x y => x.id ≠ y.id) := by
  apply filter_le_one_pairwise
  intro i
  rw [pass1_filter]
  cases firstMax (l.filter fun a => a.id == i) <;> simp [Option.toList]

lemma assoc_lookup_none (seen : List (String × Article)) (k : String)
    (h : ∀ p ∈ seen, p.1 ≠ k) : seen.lookup k = none := by
  induction seen with
  | nil => rfl
  | cons p seen ih =>
    obtain ⟨pk, pv⟩ := p
    have hk : (k == pk) = false :=
      beq_eq_false_iff_ne.mpr (Ne.symm (h (pk, pv) (List.mem_cons_self _ _)))
    rw [lookup_cons_ne _ _ _ _ hk]
    exact ih fun q hq => h q (List.mem_cons_of_mem _ hq)

lemma pass1_foldl_fresh :
    ∀ (u : List Article) (seen : List (String × Article)) (uniq : List Article),
      (∀ a ∈ u, seen.lookup a.id = none) →
      u.Pairwise (fun x y => x.id ≠ y.id) →
      (u.foldl pass1Step (seen, uniq)).2 = uniq ++ u := by
  intro u
  induction u with
  | nil => intro seen uniq _ _; simp
  | cons a u ih =>
    intro seen uniq hfresh hpw
    rw [List.foldl_cons]
    have hstep : pass1Step (seen, uniq) a = ((a.id, a) :: seen, uniq ++ [a]) := by
      simp [pass1Step, hfresh a (List.mem_cons_self a u)]
    rw [hstep]
    rw [ih ((a.id, a) :: seen) (uniq ++ [a]) ?_ (List.pairwise_cons.mp hpw).2]
    · simp
    · intro b hb
      have hne : (b.id == a.id) = false :=
        beq_eq_false_iff_ne.mpr (Ne.symm ((List.pairwise_cons.mp hpw).1 b hb))
      rw [lookup_cons_ne _ _ _ _ hne]
      exact hfresh b (List.mem_cons_of_mem a hb)

lemma pass1_of_pairwise {l : List Article}
    (h : l.Pairwise fun x y => x.id ≠ y.id) : pass1 l = l := by
  have := pass1_foldl_fresh l [] [] (fun a _ => rfl) h
  simpa [pass1] using this

/-! ### Claim theorem: exact-id dedup (C4) -/

/-- C4: after the exact-identity pass, each id occurring in the input has
exactly one surviving article: a maximum-scoring one, and the earliest
seen among those (everything before it in the id group scores strictly
less, everything after scores no more). -/
theorem claim_C4_exact_pass (l : List Article) (i : String)
    (h : ∃ a ∈ l, a.id = i) :
    ∃ b t₁ t₂,
      l.filter (fun a => a.id == i) = t₁ ++ b :: t₂
      ∧ (pass1 l).filter (fun a => a.id == i) = [b]
      ∧ (∀ c ∈ t₁, c.relevance_score < b.relevance_score)
      ∧ (∀ c ∈ t₂, c.relevance_score ≤ b.relevance_score) := by
  obtain ⟨a, ha, rfl⟩ := h
  have hmem : a ∈ l.filter (fun x => x.id == a.id) :=
    List.mem_filter.mpr ⟨ha, by simp⟩
  rcases hfm : firstMax (l.filter fun x => x.id == a.id) with _ | b
  · exact absurd (firstMax_eq_none.mp hfm) (List.ne_nil_of_mem hmem)
  · obtain ⟨t₁, t₂, hdec, h1, h2⟩ := firstMax_spec hfm
    exact ⟨b, t₁, t₂, hdec, by rw [pass1_filter, hfm]; rfl, h1, h2⟩

/-- Shared builder for concrete test articles. -/
def mkArt (i t : String) (sc : Int) : Article :=
  { id := i, title := t, url := "", source := "", source_category := "news",
    published := "2026-01-01T00:00:00+00:00", summary := "", image_url := none,
    tags := [], industries := [], vendors := [], relevance_score := sc }

theorem claim_C4_witness :
    ∃ b t₁ t₂,
      ([mkArt "u" "alpha one" 5, mkArt "u" "alpha two" 9,
        mkArt "v" "beta" 7].filter (fun a => a.id == "u") = t₁ ++ b :: t₂)
      ∧ (pass1 [mkArt "u" "alpha one" 5, mkArt "u" "alpha two" 9,
          mkArt "v" "beta" 7]).filter (fun a => a.id == "u") = [b]
      ∧ (∀ c ∈ t₁, c.relevance_score < b.relevance_score)
      ∧ (∀ c ∈ t₂, c.relevance_score ≤ b.relevance_score) :=
  claim_C4_exact_pass _ "u" ⟨mkArt "u" "alpha one" 5, by decide, by decide⟩

/-! ### Helper lemmas: fuzzy pass -/

lemma fuzzy_scan_none (a : Article) (w : Finset String) :
    ∀ slots : List (Article × Finset String),
      (∀ s ∈ slots, ¬(3 ≤ s.2.card ∧ jaccard_gt w s.2)) →
      fuzzy_scan a w slots = none := by
  intro slots
  induction slots with
  | nil => intro _; rfl
  | cons s rest ih =>
    intro h
    simp only [fuzzy_scan]
    rw [if_neg (h s (List.mem_cons_self s rest)),
      ih fun t ht => h t (List.mem_cons_of_mem s ht)]
    rfl

lemma fuzzy_scan_some_decomp (a : Article) (w : Finset String) :
    ∀ (slots slots' : List (Article × Finset String)),
      fuzzy_scan a w slots = some slots' →
      ∃ s₁ s s₂, slots = s₁ ++ s :: s₂
        ∧ (3 ≤ s.2.card ∧ jaccard_gt w s.2)
        ∧ ((s.1.relevance_score < a.relevance_score ∧ slots' = s₁ ++ (a, w) :: s₂)
           ∨ (¬ s.1.relevance_score < a.relevance_score ∧ slots' = slots)) := by
  intro slots
  induction slots with
  | nil => intro slots' h; cases h
  | cons s rest ih =>
    intro slots' h
    simp only [fuzzy_scan] at h
    by_cases hc : 3 ≤ s.2.card ∧ jaccard_gt w s.2
    · rw [if_pos hc] at h
      injection h with h
      by_cases hr : s.1.relevance_score < a.relevance_score
      · refine ⟨[], s, rest, rfl, hc, Or.inl ⟨hr, ?_⟩⟩
        rw [← h, if_pos hr]
        rfl
      · refine ⟨[], s, rest, rfl, hc, Or.inr ⟨hr, ?_⟩⟩
        rw [← h, if_neg hr]
    · rw [if_neg hc] at h
      rcases hrest : fuzzy_scan a w rest with _ | rest'
      · rw [hrest] at h; cases h
      · rw [hrest] at h
        injection h with h
        obtain ⟨s₁, t, s₂, hdec, htc, hcase⟩ := ih rest' hrest
        refine ⟨s :: s₁, t, s₂, by rw [hdec]; rfl, htc, ?_⟩
        rcases hcase with ⟨hr, hres⟩ | ⟨hr, hres⟩
        · exact Or.inl ⟨hr, by rw [← h, hres]; rfl⟩
        · exact Or.inr ⟨hr, by rw [← h, hres]⟩

lemma fuzzy_scan_length {a : Article} {w : Finset String}
    {slots slots' : List (Article × Finset String)}
    (h : fuzzy_scan a w slots = some slots') : slots'.length = slots.length := by
  obtain ⟨s₁, s, s₂, hdec, _, hcase⟩ := fuzzy_scan_some_decomp a w slots slots' h
  rcases hcase with ⟨_, hres⟩ | ⟨_, hres⟩
  · rw [hres, hdec]; simp
  · rw [hres]

lemma pass2Step_cases (slots : List (Article × Finset String)) (a : Article) :
    pass2Step slots a = slots ++ [(a, title_tokens a.title)]
    ∨ ∃ slots', fuzzy_scan a (title_tokens a.title) slots = some slots'
        ∧ pass2Step slots a = slots' ∧ 3 ≤ (title_tokens a.title).card := by
  by_cases hc : (title_tokens a.title).card < 3
  · left
    simp only [pass2Step]
    rw [if_pos hc]
  · rcases hscan : fuzzy_scan a (title_tokens a.title) slots with _ | slots'
    · left
      simp only [pass2Step]
      rw [if_neg hc, hscan]
    · right
      refine ⟨slots', rfl, ?_, by omega⟩
      simp only [pass2Step]
      rw [if_neg hc, hscan]

lemma pass2Step_mem {slots : List (Article × Finset String)} {a : Article}
    {s : Article × Finset String} (h : s ∈ pass2Step slots a) :
    s ∈ slots ∨ s = (a, title_tokens a.title) := by
  rcases pass2Step_cases slots a with hc | ⟨slots', hscan, hc, _⟩
  · rw [hc] at h
    rcases List.mem_append.mp h with h' | h'
    · exact Or.inl h'
    · exact Or.inr (List.mem_singleton.mp h')
  · rw [hc] at h
    obtain ⟨s₁, t, s₂, hdec, _, hcase⟩ := fuzzy_scan_some_decomp _ _ _ _ hscan
    rcases hcase with ⟨_, hres⟩ | ⟨_, hres⟩
    · rw [hres] at h
      rcases List.mem_append.mp h with h' | h'
      · exact Or.inl (by rw [hdec]; exact List.mem_append_left _ h')
      · rcases List.mem_cons.mp h' with h'' | h''
        · exact Or.inr h''
        · exact Or.inl (by
            rw [hdec]
            exact List.mem_append_right _ (List.mem_cons_of_mem t h''))
    · rw [hres] at h
      exact Or.inl h

lemma pass2Step_length (slots : List (Article × Finset String)) (a : Article) :
    (pass2Step slots a).length ≤ slots.length + 1 := by
  rcases pass2Step_cases slots a with hc | ⟨slots', hscan, hc, _⟩
  · rw [hc]; simp
  · rw [hc, fuzzy_scan_length hscan]; omega

lemma degenerate_slot_preserved {s : Article × Finset String}
    {slots : List (Article × Finset String)} {a : Article}
    (hs : s ∈ slots) (hcard : s.2.card < 3) : s ∈ pass2Step slots a := by
  rcases pass2Step_cases slots a with hc | ⟨slots', hscan, hc, _⟩
  · rw [hc]; exact List.mem_append_left _ hs
  · rw [hc]
    obtain ⟨s₁, t, s₂, hdec, ⟨htcard, _⟩, hcase⟩ := fuzzy_scan_some_decomp _ _ _ _ hscan
    rcases hcase with ⟨_, hres⟩ | ⟨_, hres⟩
    · rw [hres]
      rw [hdec] at hs
      rcases List.mem_append.mp hs with h' | h'
      · exact List.mem_append_left _ h'
      · rcases List.mem_cons.mp h' with h'' | h''
        · exfalso; rw [h''] at hcard; omega
        · exact List.mem_append_right _ (List.mem_cons_of_mem _ h'')
    · rw [hres]; exact hs

lemma degenerate_foldl_preserved :
    ∀ (l : List Article) (slots : List (Article × Finset String))
      (s : Article × Finset String),
      s ∈ slots → s.2.card < 3 → s ∈ l.foldl pass2Step slots := by
  intro l
  induction l with
  | nil => intro slots s hs _; exact hs
  | cons a l ih =>
    intro slots s hs hcard
    rw [List.foldl_cons]
    exact ih _ s (degenerate_slot_preserved hs hcard) hcard

lemma pass2_foldl_mem :
    ∀ (l : List Article) (slots : List (Article × Finset String))
      {s : Article × Finset String},
      s ∈ l.foldl pass2Step slots → s ∈ slots ∨ s.1 ∈ l := by
  intro l
  induction l with
  | nil => intro slots s h; exact Or.inl h
  | cons a l ih =>
    intro slots s h
    rw [List.foldl_cons] at h
    rcases ih _ h with h' | h'
    · rcases pass2Step_mem h' with h'' | h''
      · exact Or.inl h''
      · right; rw [h'']; exact List.mem_cons_self a l
    · exact Or.inr (List.mem_cons_of_mem a h')

lemma pass2_foldl_length :
    ∀ (l : List Article) (slots : List (Article × Finset String)),
      (l.foldl pass2Step slots).length ≤ slots.length + l.length := by
  intro l
  induction l with
  | nil => intro slots; simp
  | cons a l ih =>
    intro slots
    rw [List.foldl_cons]
    have h1 := ih (pass2Step slots a)
    have h2 := pass2Step_length slots a
    simp only [List.length_cons]
    omega

lemma pass2_foldl_pairwise :
    ∀ (l : List Article) (slots : List (Article × Finset String)),
      slots.Pairwise (fun s t => s.1.id ≠ t.1.id) →
      (∀ b ∈ l, ∀ s ∈ slots, b.id ≠ s.1.id) →
      l.Pairwise (fun x y => x.id ≠ y.id) →
      (l.foldl pass2Step slots).Pairwise (fun s t => s.1.id ≠ t.1.id) := by
  intro l
  induction l with
  | nil => intro slots h _ _; exact h
  | cons a l ih =>
    intro slots hpw hsep hlpw
    rw [List.foldl_cons]
    have hsep_a : ∀ s ∈ slots, a.id ≠ s.1.id := hsep a (List.mem_cons_self a l)
    apply ih
    · rcases pass2Step_cases slots a with hc | ⟨slots', hscan, hc, _⟩
      · rw [hc, List.pairwise_append]
        refine ⟨hpw, List.pairwise_singleton _ _, ?_⟩
        intro s hs t ht
        rw [List.mem_singleton] at ht
        rw [ht]
        exact (hsep_a s hs).symm
      · rw [hc]
        obtain ⟨s₁, t, s₂, hdec, _, hcase⟩ := fuzzy_scan_some_decomp _ _ _ _ hscan
        rcases hcase with ⟨_, hres⟩ | ⟨_, hres⟩
        · rw [hres]
          rw [hdec] at hpw hsep_a
          rw [List.pairwise_append] at hpw ⊢
          obtain ⟨hp1, hp2, hp12⟩ := hpw
          rw [List.pairwise_cons] at hp2 ⊢
          refine ⟨hp1, ⟨?_, hp2.2⟩, ?_⟩
          · intro u hu
            exact hsep_a u (List.mem_append_right _ (List.mem_cons_of_mem t hu))
          · intro u hu v hv
            rcases List.mem_cons.mp hv with rfl | hv'
            · exact (hsep_a u (List.mem_append_left _ hu)).symm
            · exact hp12 u hu v (List.mem_cons_of_mem t hv')
        · rw [hres]; exact hpw
    · intro b hb s hs
      rcases pass2Step_mem hs with h' | h'
      · exact hsep b (List.mem_cons_of_mem a hb) s h'
      · rw [h']
        exact ((List.pairwise_cons.mp hlpw).1 b hb).symm
    · exact (List.pairwise_cons.mp hlpw).2

lemma pass2_mem {l : List Article} {a : Article} (h : a ∈ pass2 l) : a ∈ l := by
  obtain ⟨s, hs, rfl⟩ := List.mem_map.mp h
  rcases pass2_foldl_mem l [] hs with h' | h'
  · cases h'
  · exact h'

lemma pass2_length_le (l : List Article) : (pass2 l).length ≤ l.length := by
  unfold pass2
  rw [List.length_map]
  simpa using pass2_foldl_length l []

lemma pass2_pairwise {l : List Article}
    (h : l.Pairwise fun x y => x.id ≠ y.id) :
    (pass2 l).Pairwise (fun x y => x.id ≠ y.id) := by
  unfold pass2
  exact List.pairwise_map.mpr
    (pass2_foldl_pairwise l [] List.Pairwise.nil (by simp) h)

lemma pass2_foldl_fresh :
    ∀ (l : List Article) (slots : List (Article × Finset String)),
      (∀ x ∈ l, ∀ s ∈ slots, jaccard_gt (title_tokens x.title) s.2 = false) →
      l.Pairwise (fun x y =>
        jaccard_gt (title_tokens y.title) (title_tokens x.title) = false) →
      l.foldl pass2Step slots
        = slots ++ l.map (fun a => (a, title_tokens a.title)) := by
  intro l
  induction l with
  | nil => intro slots _ _; simp
  | cons a l ih =>
    intro slots hsep hpw
    rw [List.foldl_cons]
    have hstep : pass2Step slots a = slots ++ [(a, title_tokens a.title)] := by
      rcases pass2Step_cases slots a with hc | ⟨slots', hscan, hc, _⟩
      · exact hc
      · exfalso
        obtain ⟨s₁, t, s₂, hdec, ⟨_, hjac⟩, _⟩ := fuzzy_scan_some_decomp _ _ _ _ hscan
        have hfalse := hsep a (List.mem_cons_self a l) t
          (by rw [hdec]; exact List.mem_append_right _ (List.mem_cons_self t s₂))
        simp [hfalse] at hjac
    rw [hstep, ih (slots ++ [(a, title_tokens a.title)]) ?_ (List.pairwise_cons.mp hpw).2]
    · simp
    · intro x hx s hs
      rcases List.mem_append.mp hs with hs' | hs'
      · exact hsep x (List.mem_cons_of_mem a hx) s hs'
      · rw [List.mem_singleton] at hs'
        rw [hs']
        exact (List.pairwise_cons.mp hpw).1 x hx

/-! ### Claim theorems: deduplication (C3, C5, C9, C10) -/

/-- A three-article input on which `deduplicate` is not idempotent:
the third article fuzzy-replaces the first slot in place, ending up
similar to the second slot, which was only ever compared against the
original first slot. -/
def exC3 : List Article :=
  [mkArt "1" "a b c d e f g h" 10,
   mkArt "2" "a b c d e f g i" 10,
   mkArt "3" "a b c d e f g" 20]

/-- C3 (counterexample): `deduplicate` applied twice to `exC3` differs
from applying it once (`[A3, A2]` collapses to `[A3]` on the second
run). -/
theorem claim_C3_counterexample :
    deduplicate (deduplicate exC3) ≠ deduplicate exC3 := by decide

/-- C3 (amended): dedup's output always has pairwise-distinct ids, so
the exact-identity pass of a second run leaves it unchanged; full
idempotence fails (see the counterexample) because the fuzzy pass's
in-place replacement can leave two mutually similar surviving titles. -/
theorem claim_C3_amended (l : List Article) :
    pass1 (deduplicate l) = deduplicate l :=
  pass1_of_pairwise (pass2_pairwise (pass1_pairwise l))

lemma pass2_foldl_tokenized :
    ∀ (l : List Article) (slots : List (Article × Finset String)),
      (∀ s ∈ slots, s.2 = title_tokens s.1.title) →
      ∀ s ∈ l.foldl pass2Step slots, s.2 = title_tokens s.1.title := by
  intro l
  induction l with
  | nil => intro slots h s hs; exact h s hs
  | cons a l ih =>
    intro slots h s hs
    rw [List.foldl_cons] at hs
    refine ih _ ?_ s hs
    intro t ht
    rcases pass2Step_mem ht with h' | h'
    · exact h t h'
    · rw [h']

lemma dissimilar_slot_survives {slots : List (Article × Finset String)} {a : Article}
    (htok : ∀ s ∈ slots, s.2 = title_tokens s.1.title)
    {y : Article × Finset String} (hy : y ∈ slots)
    (hj : jaccard_gt (title_tokens a.title) (title_tokens y.1.title) = false) :
    y ∈ pass2Step slots a := by
  rcases pass2Step_cases slots a with hc | ⟨slots', hscan, hc, _⟩
  · rw [hc]; exact List.mem_append_left _ hy
  · rw [hc]
    obtain ⟨s₁, t, s₂, hdec, ⟨_, hjt⟩, hcase⟩ := fuzzy_scan_some_decomp _ _ _ _ hscan
    have hyt : y ≠ t := by
      intro h
      have ht2 : t.2 = title_tokens t.1.title :=
        htok t (by rw [hdec]; exact List.mem_append_right _ (List.mem_cons_self t s₂))
      rw [ht2] at hjt
      rw [h] at hj
      rw [hj] at hjt
      cases hjt
    rw [hdec] at hy
    rcases List.mem_append.mp hy with h1 | h1
    · rcases hcase with ⟨_, hres⟩ | ⟨_, hres⟩
      · rw [hres]; exact List.mem_append_left _ h1
      · rw [hres, hdec]; exact List.mem_append_left _ h1
    · rcases List.mem_cons.mp h1 with h2 | h2
      · exact absurd h2 hyt
      · rcases hcase with ⟨_, hres⟩ | ⟨_, hres⟩
        · rw [hres]; exact List.mem_append_right _ (List.mem_cons_of_mem _ h2)
        · rw [hres, hdec]; exact List.mem_append_right _ (List.mem_cons_of_mem _ h2)

/-- C5: (1) on any input, every merge event of the fuzzy pass — article
`a` arriving at the slot state reached after any prefix `l₁` — merges
`a` with a slot occupant `y` whose title-token Jaccard similarity with
`a` exceeds 0.85 (and it replaces `y` exactly when `a` scores strictly
higher, else discards `a`); hence two articles with similarity ≤ 0.85
are never merged into each other; (2) dually, a slot occupant whose
similarity with the arriving article is ≤ 0.85 survives that article's
step untouched; (3) in particular, if no two articles of the input have
similarity exceeding 0.85 the fuzzy pass returns the input unchanged;
(4) a two-article input with both titles having at least 3 distinct
tokens and similarity exceeding 0.85 is merged into one slot keeping
the strictly-higher-scored article (the earlier one on ties). -/
theorem claim_C5_fuzzy_threshold :
    (∀ (l₁ : List Article) (a : Article) (slots' : List (Article × Finset String)),
      fuzzy_scan a (title_tokens a.title) (l₁.foldl pass2Step []) = some slots' →
      ∃ s₁ y s₂,
        l₁.foldl pass2Step [] = s₁ ++ y :: s₂
        ∧ jaccard_gt (title_tokens a.title) (title_tokens y.1.title) = true
        ∧ ((y.1.relevance_score < a.relevance_score
              ∧ slots' = s₁ ++ (a, title_tokens a.title) :: s₂)
           ∨ (¬ y.1.relevance_score < a.relevance_score
              ∧ slots' = l₁.foldl pass2Step [])))
    ∧ (∀ (l₁ : List Article) (a : Article) (y : Article × Finset String),
      y ∈ l₁.foldl pass2Step [] →
      jaccard_gt (title_tokens a.title) (title_tokens y.1.title) = false →
      y ∈ pass2Step (l₁.foldl pass2Step []) a)
    ∧ (∀ l : List Article,
      l.Pairwise (fun x y =>
        jaccard_gt (title_tokens y.title) (title_tokens x.title) = false) →
      pass2 l = l)
    ∧ (∀ a b : Article,
      3 ≤ (title_tokens a.title).card → 3 ≤ (title_tokens b.title).card →
      jaccard_gt (title_tokens b.title) (title_tokens a.title) = true →
      pass2 [a, b] = [if a.relevance_score < b.relevance_score then b else a]) := by
  refine ⟨?_, ?_, ?_, ?_⟩
  · intro l₁ a slots' hscan
    obtain ⟨s₁, y, s₂, hdec, ⟨_, hjac⟩, hcase⟩ := fuzzy_scan_some_decomp _ _ _ _ hscan
    have hytok : y.2 = title_tokens y.1.title :=
      pass2_foldl_tokenized l₁ [] (by simp) y
        (by rw [hdec]; exact List.mem_append_right _ (List.mem_cons_self _ _))
    rw [hytok] at hjac
    exact ⟨s₁, y, s₂, hdec, hjac, hcase⟩
  · intro l₁ a y hy hj
    exact dissimilar_slot_survives (pass2_foldl_tokenized l₁ [] (by simp)) hy hj
  · intro l hpw
    unfold pass2
    rw [pass2_foldl_fresh l [] (by simp) hpw]
    have hid : (Prod.fst ∘ fun a : Article => (a, title_tokens a.title)) = id := rfl
    simp only [List.nil_append, List.map_map, hid, List.map_id]
  · intro a b ha hb hj
    unfold pass2
    rw [List.foldl_cons, List.foldl_cons, List.foldl_nil]
    have h1 : pass2Step [] a = [(a, title_tokens a.title)] := by
      simp only [pass2Step]
      rw [if_neg (by omega)]
      rfl
    rw [h1]
    have hscan : fuzzy_scan b (title_tokens b.title) [(a, title_tokens a.title)]
        = some (if a.relevance_score < b.relevance_score
            then [(b, title_tokens b.title)] else [(a, title_tokens a.title)]) := by
      simp only [fuzzy_scan]
      rw [if_pos ⟨ha, hj⟩]
    have h2 : pass2Step [(a, title_tokens a.title)] b
        = if a.relevance_score < b.relevance_score
            then [(b, title_tokens b.title)] else [(a, title_tokens a.title)] := by
      simp only [pass2Step]
      rw [if_neg (by omega), hscan]
    rw [h2]
    split <;> rfl

def exC5a : Article := mkArt "1" "alpha beta gamma" 5
def exC5b : Article := mkArt "2" "delta epsilon zeta" 5
def exC5c : Article := mkArt "3" "one two three four five six seven" 3
def exC5d : Article := mkArt "4" "one two three four five six seven extra" 9

theorem claim_C5_witness :
    (∃ s₁ y s₂,
      [exC5c].foldl pass2Step [] = s₁ ++ y :: s₂
      ∧ jaccard_gt (title_tokens exC5d.title) (title_tokens y.1.title) = true
      ∧ ((y.1.relevance_score < exC5d.relevance_score
            ∧ [(exC5d, title_tokens exC5d.title)]
                = s₁ ++ (exC5d, title_tokens exC5d.title) :: s₂)
         ∨ (¬ y.1.relevance_score < exC5d.relevance_score
            ∧ [(exC5d, title_tokens exC5d.title)] = [exC5c].foldl pass2Step [])))
    ∧ (exC5a, title_tokens exC5a.title)
        ∈ pass2Step ([exC5a].foldl pass2Step []) exC5b
    ∧ pass2 [exC5a, exC5b] = [exC5a, exC5b]
    ∧ pass2 [exC5c, exC5d] = [exC5d] := by
  refine ⟨?_, ?_, ?_, ?_⟩
  · exact claim_C5_fuzzy_threshold.1 [exC5c] exC5d
      [(exC5d, title_tokens exC5d.title)] (by decide)
  · exact claim_C5_fuzzy_threshold.2.1 [exC5a] exC5b
      (exC5a, title_tokens exC5a.title) (by decide) (by decide)
  · exact claim_C5_fuzzy_threshold.2.2.1 [exC5a, exC5b] (by decide)
  · have h := claim_C5_fuzzy_threshold.2.2.2 exC5c exC5d
      (by decide) (by decide) (by decide)
    rw [if_pos (by decide)] at h
    exact h

/-- C9: an article whose title has fewer than 3 distinct word tokens
always survives the fuzzy pass: it is placed in its own slot, never
matched as a duplicate, and never replaced. -/
theorem claim_C9_degenerate_titles (l : List Article) (a : Article)
    (ha : a ∈ l) (hcard : (title_tokens a.title).card < 3) : a ∈ pass2 l := by
  obtain ⟨s, t, rfl⟩ := List.append_of_mem ha
  unfold pass2
  rw [List.foldl_append, List.foldl_cons]
  have hstep : pass2Step (s.foldl pass2Step []) a
      = (s.foldl pass2Step []) ++ [(a, title_tokens a.title)] := by
    simp only [pass2Step]
    rw [if_pos hcard]
  rw [hstep]
  have hmem : (a, title_tokens a.title)
      ∈ (s.foldl pass2Step []) ++ [(a, title_tokens a.title)] :=
    List.mem_append_right _ (List.mem_singleton.mpr rfl)
  exact List.mem_map.mpr
    ⟨(a, title_tokens a.title), degenerate_foldl_preserved t _ _ hmem hcard, rfl⟩

def exC9 : Article := mkArt "9" "hello world" 1

theorem claim_C9_witness : exC9 ∈ pass2 [mkArt "8" "hello world now" 50, exC9] :=
  claim_C9_degenerate_titles _ exC9 (by decide) (by decide)

/-- C10: deduplication only selects: every output article is an input
article taken unmodified, the output is no longer than the input, and
no two output articles share an id. -/
theorem claim_C10_dedup_invariants (l : List Article) :
    (∀ a ∈ deduplicate l, a ∈ l)
    ∧ (deduplicate l).length ≤ l.length
    ∧ (deduplicate l).Pairwise (fun x y => x.id ≠ y.id) :=
  ⟨fun _ ha => pass1_mem (pass2_mem ha),
   le_trans (pass2_length_le (pass1 l)) (pass1_length_le l),
   pass2_pairwise (pass1_pairwise l)⟩

theorem claim_C10_witness : (deduplicate exC3).length ≤ exC3.length :=
  (claim_C10_dedup_invariants exC3).2.1

/-! ### Helper lemmas: output sort order -/

lemma charListLE_trans :
    ∀ xs ys zs : List Char,
      charListLE xs ys = true → charListLE ys zs = true → charListLE xs zs = true := by
  intro xs
  induction xs with
  | nil => intro ys zs _ _; rfl
  | cons x xs ih =>
    intro ys zs h1 h2
    cases ys with
    | nil => cases h1
    | cons y ys =>
      cases zs with
      | nil => cases h2
      | cons z zs =>
        simp only [charListLE] at h1 h2 ⊢
        by_cases hxy : x = y
        · rw [if_pos hxy] at h1
          by_cases hyz : y = z
          · rw [if_pos hyz] at h2
            rw [if_pos (hxy.trans hyz)]
            exact ih ys zs h1 h2
          · rw [if_neg hyz] at h2
            have hyz' : y < z := of_decide_eq_true h2
            have hxz : x < z := hxy ▸ hyz'
            rw [if_neg (ne_of_lt hxz)]
            exact decide_eq_true hxz
        · rw [if_neg hxy] at h1
          have hxy' : x < y := of_decide_eq_true h1
          by_cases hyz : y = z
          · have hxz : x < z := hyz ▸ hxy'
            rw [if_neg (ne_of_lt hxz)]
            exact decide_eq_true hxz
          · rw [if_neg hyz] at h2
            have hyz' : y < z := of_decide_eq_true h2
            have hxz : x < z := lt_trans hxy' hyz'
            rw [if_neg (ne_of_lt hxz)]
            exact decide_eq_true hxz

lemma charListLE_total :
    ∀ xs ys : List Char, (charListLE xs ys || charListLE ys xs) = true := by
  intro xs
  induction xs with
  | nil => intro ys; rfl
  | cons x xs ih =>
    intro ys
    cases ys with
    | nil => rfl
    | cons y ys =>
      simp only [charListLE]
      by_cases hxy : x = y
      · rw [if_pos hxy, if_pos hxy.symm]
        exact ih ys
      · rw [if_neg hxy, if_neg (Ne.symm hxy)]
        rcases lt_or_gt_of_ne hxy with h | h
        · rw [decide_eq_true h, Bool.true_or]
        · rw [decide_eq_true h, Bool.or_true]

lemma sort_le_trans :
    ∀ a b c : Article, sort_le a b = true → sort_le b c = true → sort_le a c = true := by
  intro a b c h1 h2
  simp only [sort_le, Bool.or_eq_true, Bool.and_eq_true, decide_eq_true_eq,
    beq_iff_eq] at h1 h2 ⊢
  rcases h1 with h1 | ⟨h1e, h1p⟩
  · rcases h2 with h2 | ⟨h2e, h2p⟩
    · left; omega
    · left; omega
  · rcases h2 with h2 | ⟨h2e, h2p⟩
    · left; omega
    · right
      exact ⟨h1e.trans h2e, charListLE_trans _ _ _ h1p h2p⟩

lemma sort_le_total : ∀ a b : Article, (sort_le a b || sort_le b a) = true := by
  intro a b
  simp only [sort_le, Bool.or_eq_true, Bool.and_eq_true, decide_eq_true_eq, beq_iff_eq]
  rcases lt_trichotomy a.relevance_score b.relevance_score with h | h | h
  · right; left; exact h
  · have htot := charListLE_total a.published.data b.published.data
    rw [Bool.or_eq_true] at htot
    rcases htot with hx | hy
    · left; right; exact ⟨h, hx⟩
    · right; right; exact ⟨h.symm, hy⟩
  · left; left; exact h

/-! ### Claim theorem: primary output set (C8) -/

/-- C8: the primary set is sorted by relevance_score descending with ties
by published ascending (the `sort_le` key), holds at most 100 articles
(exactly `min |input| 100`), draws only from the input articles, and
contains all of them whenever the input has at most 100. -/
theorem claim_C8_main_feed (l : List Article) :
    (main_feed l).Pairwise (fun a b => sort_le a b = true)
    ∧ (main_feed l).Subperm l
    ∧ (main_feed l).length = min l.length MAX_ARTICLES_PER_OUTPUT
    ∧ (l.length ≤ MAX_ARTICLES_PER_OUTPUT → (main_feed l).Perm l) := by
  have hsorted := List.sorted_mergeSort sort_le_trans sort_le_total l
  have hperm := List.mergeSort_perm l sort_le
  refine ⟨?_, ?_, ?_, ?_⟩
  · exact List.Pairwise.sublist (List.take_sublist _ _) hsorted
  · exact ((List.take_sublist _ _).subperm).trans hperm.subperm
  · unfold main_feed
    rw [List.length_take, hperm.length_eq]
    exact Nat.min_comm _ _
  · intro hle
    unfold main_feed
    rw [List.take_of_length_le (by rw [hperm.length_eq]; exact hle)]
    exact hperm

theorem claim_C8_witness : (main_feed exC3).Perm exC3 :=
  (claim_C8_main_feed exC3).2.2.2 (by decide)

/-! ### Claim theorem: vendor partition (C1) -/

def cfgC1 : Config where
  high_weight := []
  medium_weight := []
  low_weight := []
  industry_keywords := []
  vendor_keywords := [("adobe", ["adobe"]), ("salesforce", ["salesforce"])]

def artC1 : Article := mkArt "a1" "Adobe launches new analytics tool" 0

/-- C1 (code bug evaluation): the classifier marks `artC1` as an "adobe"
article, its `source_category` is not "adobe", yet after the full
pipeline — which pops the `vendors` field from every article before
`build_output_files` runs — the adobe vendor set is empty, so the
article does not appear in it even though the spec's membership rule
says it must. -/
theorem claim_C1_vendor_partition :
    classify_vendors artC1 cfgC1 = ["adobe"]
    ∧ artC1.source_category ≠ "adobe"
    ∧ vendor_feed "adobe" (pipeline (fun _ => none) 0 cfgC1 [artC1]) = [] := by
  refine ⟨by decide, by decide, ?_⟩
  have hfil : (pipeline (fun _ => none) 0 cfgC1 [artC1]).filter
      (fun a => a.source_category == "adobe" || a.vendors.contains "adobe") = [] := by
    decide
  unfold vendor_feed
  rw [hfil, List.mergeSort_nil]
  rfl

end FetchNews
